import Mathlib

/-!
Verification of the static source-code metrics analyzer
(`scripts/verify_metrics.py`).

Python strings are modelled as `List Char` (ASCII inputs; `\w` and `\s`
are modelled by their ASCII meaning).  Each regex used by the program is
translated into an explicit deterministic scanner whose behaviour matches
the leftmost, non-overlapping semantics of `re.sub` / `re.findall` /
`re.search` on the concrete patterns of the source, as analysed pattern
by pattern.
-/

set_option maxRecDepth 200000

/-! ## Character constants (written via code points to keep sources plain) -/

/-- The `/` character. -/
def slashC : Char := '/'

/-- The `*` character. -/
def starC : Char := '*'

/-- Newline. -/
def nlC : Char := '\n'

/-- Space. -/
def spC : Char := ' '

/-- Backslash (code point 92). -/
def bslC : Char := Char.ofNat 92

/-- Single quote (code point 39). -/
def sqC : Char := Char.ofNat 39

/-- Double quote (code point 34). -/
def dqC : Char := Char.ofNat 34

/-- Opening brace (code point 123). -/
def lbC : Char := Char.ofNat 123

/-- Closing brace (code point 125). -/
def rbC : Char := Char.ofNat 125

/-- Opening parenthesis. -/
def lpC : Char := '('

/-- Closing parenthesis. -/
def rpC : Char := ')'

/-- ASCII model of Python `\s` (space, tab, newline, CR, FF, VT). -/
def isSpaceChar (c : Char) : Bool :=
  c = ' ' || c = '\t' || c = '\n' || c = '\r' || c = '\x0b' || c = '\x0c'

/-- ASCII model of Python `\w` (letters, digits, underscore). -/
def isWordChar (c : Char) : Bool :=
  (c ≥ 'a' && c ≤ 'z') || (c ≥ 'A' && c ≤ 'Z') || (c ≥ '0' && c ≤ '9') || c = '_'

/-! ## Thresholds (source lines 7-9) -/

/-- Threshold `MAX_FILE_LOC = 500`. -/
def MAX_FILE_LOC : Nat := 500

/-- Threshold `MAX_FUNC_LOC = 50`. -/
def MAX_FUNC_LOC : Nat := 50

/-- Threshold `MAX_COMPLEXITY = 10`. -/
def MAX_COMPLEXITY : Nat := 10

/-! ## Literal scanning shared by `remove_comments` and the string masking

The regex `'(?:\\.|[^\\'])*'` (and its double-quote variant) is
deterministic: scanning the text after the opening quote, a backslash
always consumes itself plus the next character, any other character that
is not the quote is consumed singly, the first quote met at an item
boundary closes the literal, and reaching the end (or a dangling
backslash) makes the whole alternative fail. -/

/-- Scan the body of a quoted literal after its opening quote `q`.
Returns `some (body, rest)` where `body` is the matched content
(excluding both quotes) and `rest` what follows the closing quote, or
`none` when the regex alternative fails (unterminated literal). -/
def scanLit (q : Char) : List Char → Option (List Char × List Char)
  | [] => none
  | c :: rest =>
    if c = q then some ([], rest)
    else if c = bslC then
      match rest with
      | [] => none
      | d :: rest₂ =>
        match scanLit q rest₂ with
        | some (body, r) => some (c :: d :: body, r)
        | none => none
    else
      match scanLit q rest with
      | some (body, r) => some (c :: body, r)
      | none => none

/-- Drop characters of a line comment: everything up to (but excluding)
the next newline, matching the lazy `//.*?$` under `MULTILINE`. -/
def dropToNl : List Char → List Char
  | [] => []
  | c :: rest => if c = nlC then c :: rest else dropToNl rest

/-- Find the first `*/` terminator; `some rest` is the text after it.
Matches the lazy `/\*.*?\*/` under `DOTALL`. -/
def findClose : List Char → Option (List Char)
  | [] => none
  | [_] => none
  | c₁ :: c₂ :: rest =>
    if c₁ = starC ∧ c₂ = slashC then some rest
    else findClose (c₂ :: rest)

/-! ## `remove_comments` (source lines 11-22)

The combined pattern tries, at each position and left to right:
line comment `//.*?$`, block comment `/\*.*?\*/`, single-quoted
literal, double-quoted literal.  Comments are replaced by one space,
literals are kept verbatim; on failure the scan advances one character
(`re.sub` leftmost semantics).  Implemented with fuel (each step consumes
at least one input character, so `l.length` fuel suffices). -/

/-- Fuel-indexed comment remover. -/
def rcAux : Nat → List Char → List Char
  | 0, l => l
  | _ + 1, [] => []
  | fuel + 1, c :: rest =>
    if c = slashC then
      match rest with
      | [] => [c]
      | d :: rest₂ =>
        if d = slashC then spC :: rcAux fuel (dropToNl rest₂)
        else if d = starC then
          match findClose rest₂ with
          | some rest₃ => spC :: rcAux fuel rest₃
          | none => c :: rcAux fuel (d :: rest₂)
        else c :: rcAux fuel (d :: rest₂)
    else if c = sqC ∨ c = dqC then
      match scanLit c rest with
      | some (body, rest') => c :: body ++ c :: rcAux fuel rest'
      | none => c :: rcAux fuel rest
    else c :: rcAux fuel rest

/-- The `remove_comments` function of the source, on `List Char`. -/
def remove_comments (l : List Char) : List Char := rcAux l.length l

/-! ## Line splitting, stripping, LOC counting (source lines 24-30) -/

/-- Python `text.split(chr(10))`: always returns one more part than the
number of newlines, parts may be empty. -/
def splitLines : List Char → List (List Char)
  | [] => [[]]
  | c :: rest =>
    if c = nlC then [] :: splitLines rest
    else
      match splitLines rest with
      | l :: ls => (c :: l) :: ls
      | [] => [[c]]

/-- Python `line.strip()`: remove leading and trailing whitespace. -/
def strip (l : List Char) : List Char :=
  ((l.dropWhile isSpaceChar).reverse.dropWhile isSpaceChar).reverse

/-- The `count_file_loc` function of the source: number of lines whose stripped
content is non-empty. -/
def count_file_loc (text : List Char) : Nat :=
  (splitLines text).countP (fun l => !(strip l).isEmpty)

/-! ## `calculate_complexity` (source lines 32-53)

`re.findall` on `\bword\b` patterns and plain operator patterns is a
left-to-right non-overlapping scan; each keyword of the source list is
counted independently and the counts summed onto the base score 1. -/

/-- Does the previous character (if any) end a word?  `\b` before the
pattern requires it not to be a word character. -/
def prevBoundaryOk : Option Char → Bool
  | none => true
  | some p => !isWordChar p

/-- Boundary `\b` after the pattern: the next character (if any) must not be a
word character. -/
def nextBoundaryOk : List Char → Bool
  | [] => true
  | d :: _ => !isWordChar d

/-- Fuel-indexed left-to-right non-overlapping count of whole-word
occurrences of `w` (the `\bw\b` patterns of the source; `w` itself may
contain a literal space, as in `else if`). -/
def countWordAux (w : List Char) : Nat → Option Char → List Char → Nat
  | 0, _, _ => 0
  | _ + 1, _, [] => 0
  | fuel + 1, prev, c :: rest =>
    if prevBoundaryOk prev ∧ w.isPrefixOf (c :: rest) ∧ nextBoundaryOk ((c :: rest).drop w.length) then
      1 + countWordAux w fuel w.getLast? ((c :: rest).drop w.length)
    else countWordAux w fuel (some c) rest

/-- Number of `re.findall` matches of `\bw\b` in `t`. -/
def countWord (w t : List Char) : Nat := countWordAux w t.length none t

/-- Fuel-indexed left-to-right non-overlapping count of plain substring
occurrences of `w` (the operator patterns of the source). -/
def countSubAux (w : List Char) : Nat → List Char → Nat
  | 0, _ => 0
  | _ + 1, [] => 0
  | fuel + 1, c :: rest =>
    if w.isPrefixOf (c :: rest) then 1 + countSubAux w fuel ((c :: rest).drop w.length)
    else countSubAux w fuel rest

/-- Number of `re.findall` matches of the literal `w` in `t`. -/
def countSub (w t : List Char) : Nat := countSubAux w t.length t

/-- The `calculate_complexity` function of the source: base 1, plus one per match of
each keyword pattern, plus one per match of each operator pattern. -/
def calculate_complexity (text : List Char) : Nat :=
  1 + countWord "if".data text + countWord "else if".data text
    + countWord "for".data text + countWord "while".data text
    + countWord "do".data text + countWord "case".data text
    + countWord "catch".data text
    + countSub ['&', '&'] text + countSub ['|', '|'] text
    + countSub ['?'] text

/-! ## String masking for structural analysis (source lines 86-87)

`analyze_functions` first replaces every single-quoted literal by an
empty pair of single quotes, then, on the result, every double-quoted
literal by an empty pair of double quotes. -/

/-- Fuel-indexed `re.sub` of the quoted-literal pattern by an empty
literal `qq`. -/
def maskQAux (q : Char) : Nat → List Char → List Char
  | 0, l => l
  | _ + 1, [] => []
  | fuel + 1, c :: rest =>
    if c = q then
      match scanLit q rest with
      | some (_, rest') => q :: q :: maskQAux q fuel rest'
      | none => c :: maskQAux q fuel rest
    else c :: maskQAux q fuel rest

/-- One masking pass for quote character `q`. -/
def maskQ (q : Char) (l : List Char) : List Char := maskQAux q l.length l

/-- The two masking passes of `analyze_functions` (single quotes first,
then double quotes on the result). -/
def maskStrings (l : List Char) : List Char := maskQ dqC (maskQ sqC l)

/-! ## The function-declaration pattern (source line 75)

`^\s*(([\w<>?]+)\s+)?(\w+)\s*\(.*?\)\s*(async\s*)?\{` searched on a
single line (so the `^` anchors at position 0 and `.` never meets a
newline).  Backtracking is resolved deterministically: every `\s*`/`\s+`
and `\w+` run here is followed by a character class disjoint from it, so
only the optional type token group and the lazy `.*?` (which tries each
`)` from the left) admit real choice. -/

/-- Characters of the optional type token `[\w<>?]`. -/
def isTypeTokChar (c : Char) : Bool := isWordChar c || c = '<' || c = '>' || c = '?'

/-- The continuation `\s*(async\s*)?\{` after a candidate `)`. -/
def contAfterParen (cs : List Char) : Bool :=
  let cs2 := cs.dropWhile isSpaceChar
  ("async".data.isPrefixOf cs2 && ((cs2.drop 5).dropWhile isSpaceChar).head? = some lbC)
  || cs2.head? = some lbC

/-- Try each `)` from the left (the lazy `.*?\)`); succeed when the
continuation matches after it. -/
def afterParen (name : List Char) : List Char → Option (List Char)
  | [] => none
  | c :: rest =>
    if c = rpC ∧ contAfterParen rest then some name
    else afterParen name rest

/-- Match `(\w+)\s*\(.*?\)\s*(async\s*)?\{` from the current position; returns
the captured group 3 (the identifier). -/
def tailFromName (cs : List Char) : Option (List Char) :=
  let name := cs.takeWhile isWordChar
  if name.isEmpty then none
  else
    let r2 := (cs.dropWhile isWordChar).dropWhile isSpaceChar
    match r2 with
    | c :: r3 => if c = lpC then afterParen name r3 else none
    | [] => none

/-- Model of `func_def_pattern.search(line)`: `some name` iff the pattern
matches, where `name` is group 3. -/
def funcDefMatch (cs : List Char) : Option (List Char) :=
  let j := cs.dropWhile isSpaceChar
  let r := j.takeWhile isTypeTokChar
  let aft := j.dropWhile isTypeTokChar
  let presentOk := !r.isEmpty &&
    (match aft.head? with
     | some c => isSpaceChar c
     | none => false)
  if presentOk then
    match tailFromName (aft.dropWhile isSpaceChar) with
    | some n => some n
    | none => tailFromName j
  else tailFromName j

/-! ## Violation messages (source lines 126, 129, 156) -/

/-- Decimal rendering of a natural number. -/
def natStr (n : Nat) : List Char := (Nat.repr n).data

/-- Message `"  - Function '<name>' (line <start+1>): LOC <loc> > 50"`. -/
def funcLocMsg (name : List Char) (start loc : Nat) : List Char :=
  "  - Function ".data ++ sqC :: name ++ sqC :: " (line ".data ++ natStr (start + 1)
    ++ "): LOC ".data ++ natStr loc ++ " > ".data ++ natStr MAX_FUNC_LOC

/-- Message `"  - Function '<name>' (line <start+1>): Complexity <comp> > 10"`. -/
def funcCompMsg (name : List Char) (start comp : Nat) : List Char :=
  "  - Function ".data ++ sqC :: name ++ sqC :: " (line ".data ++ natStr (start + 1)
    ++ "): Complexity ".data ++ natStr comp ++ " > ".data ++ natStr MAX_COMPLEXITY

/-- Message `"  - File LOC <loc> > 500"`. -/
def fileLocMsg (loc : Nat) : List Char :=
  "  - File LOC ".data ++ natStr loc ++ " > ".data ++ natStr MAX_FILE_LOC

/-! ## The function extractor (source lines 58-131) -/

/-- The reserved names rejected at source line 76. -/
def controlKeywords : List (List Char) :=
  ["if".data, "for".data, "while".data, "switch".data, "catch".data, "do".data]

/-- The mutable scan state of `analyze_functions`. -/
structure ExtState where
  inFunction : Bool
  braceBalance : Int
  funcStartLine : Nat
  funcName : List Char
  funcContent : List (List Char)
  violations : List (List Char)
deriving DecidableEq

/-- The two violation lines possibly emitted for one completed function
region: LOC check first, complexity check second (source lines 115-129). -/
def emitViols (name : List Char) (start : Nat) (content : List (List Char)) : List (List Char) :=
  let funcText := List.intercalate [nlC] content
  let loc := content.countP (fun l => !(strip l).isEmpty)
  let comp := calculate_complexity funcText
  (if MAX_FUNC_LOC < loc then [funcLocMsg name start loc] else [])
    ++ (if MAX_COMPLEXITY < comp then [funcCompMsg name start comp] else [])

/-- One iteration of the `for i, line in enumerate(lines)` loop of
`analyze_functions`. -/
def stepLine (i : Nat) (line : List Char) (s : ExtState) : ExtState :=
  let lineNS := maskStrings line
  let ob := lineNS.count lbC
  let cb := lineNS.count rbC
  let s1 :=
    if s.inFunction = false ∧ cb < ob then
      match funcDefMatch lineNS with
      | some name =>
        if name ∈ controlKeywords then s
        else { s with inFunction := true, braceBalance := 0,
                      funcStartLine := i, funcName := name, funcContent := [] }
      | none => s
    else s
  if s1.inFunction then
    let content := s1.funcContent ++ [line]
    let bal := s1.braceBalance + (ob : Int) - (cb : Int)
    if bal = 0 then
      { s1 with inFunction := false, braceBalance := bal, funcContent := content,
                violations := s1.violations ++ emitViols s1.funcName s1.funcStartLine content }
    else { s1 with braceBalance := bal, funcContent := content }
  else s1

/-- The enumerated fold of `analyze_functions` over the lines. -/
def extractGo : Nat → List (List Char) → ExtState → ExtState
  | _, [], s => s
  | i, l :: ls, s => extractGo (i + 1) ls (stepLine i l s)

/-- Initial state (source lines 66-70). -/
def initExtState : ExtState :=
  { inFunction := false, braceBalance := 0, funcStartLine := 0,
    funcName := "unknown".data, funcContent := [], violations := [] }

/-- The `analyze_functions(text, filename)` function; the filename is unused by the
source beyond being a parameter. -/
def analyze_functions (text : List Char) (_fname : List Char) : List (List Char) :=
  (extractGo 0 (splitLines text) initExtState).violations

/-- Final extractor state on a whole text (used to observe the
`in_function` flag at end of file). -/
def extractFinal (text : List Char) : ExtState :=
  extractGo 0 (splitLines text) initExtState

/-- The per-file analysis of `main` (source lines 150-159): sanitize,
check the file LOC threshold, then extend with the function violations. -/
def analyzeFile (content : List Char) : List (List Char) :=
  let clean := remove_comments content
  let fileLoc := count_file_loc clean
  (if MAX_FILE_LOC < fileLoc then [fileLocMsg fileLoc] else [])
    ++ analyze_functions clean []

/-! ## Region-collecting view of the extractor (for the ordering claim)

`stepRegions` returns the (zero or one) completed regions that one loop
iteration emits, mirroring the branch structure of `stepLine`; `emitViols`
applied in extraction order re-creates exactly the violation list. -/

/-- A completed function region: name, start line index, body lines. -/
abbrev Region : Type := List Char × Nat × List (List Char)

/-- The violation lines of one region, LOC check before complexity. -/
def regionViols (r : Region) : List (List Char) := emitViols r.1 r.2.1 r.2.2

/-- The regions completed during one loop iteration. -/
def stepRegions (i : Nat) (line : List Char) (s : ExtState) : List Region :=
  let lineNS := maskStrings line
  let ob := lineNS.count lbC
  let cb := lineNS.count rbC
  let s1 :=
    if s.inFunction = false ∧ cb < ob then
      match funcDefMatch lineNS with
      | some name =>
        if name ∈ controlKeywords then s
        else { s with inFunction := true, braceBalance := 0,
                      funcStartLine := i, funcName := name, funcContent := [] }
      | none => s
    else s
  if s1.inFunction then
    if s1.braceBalance + ((lineNS.count lbC : Int)) - ((lineNS.count rbC : Int)) = 0 then
      [(s1.funcName, s1.funcStartLine, s1.funcContent ++ [line])]
    else []
  else []

/-- All regions completed from state `s` onwards. -/
def regionsFrom : Nat → List (List Char) → ExtState → List Region
  | _, [], _ => []
  | i, l :: ls, s => stepRegions i l s ++ regionsFrom (i + 1) ls (stepLine i l s)

/-- The regions the extractor completes on a whole text, in file order. -/
def extractRegions (text : List Char) : List Region :=
  regionsFrom 0 (splitLines text) initExtState

/-! ## Newline counting and the multi-line-block-comment detector -/

/-- Number of newline characters. -/
def countNl (l : List Char) : Nat := l.count nlC

/-- Fuel-indexed scan mirroring `rcAux` that checks that no matched
block comment contains a newline (the segment consumed by a block
comment has the newline count of `rest` minus that of the remainder). -/
def noMlbAux : Nat → List Char → Bool
  | 0, _ => true
  | _ + 1, [] => true
  | fuel + 1, c :: rest =>
    if c = slashC then
      match rest with
      | [] => true
      | d :: rest₂ =>
        if d = slashC then noMlbAux fuel (dropToNl rest₂)
        else if d = starC then
          match findClose rest₂ with
          | some rest₃ => countNl rest₂ = countNl rest₃ && noMlbAux fuel rest₃
          | none => noMlbAux fuel (d :: rest₂)
        else noMlbAux fuel (d :: rest₂)
    else if c = sqC ∨ c = dqC then
      match scanLit c rest with
      | some (_, rest') => noMlbAux fuel rest'
      | none => noMlbAux fuel rest
    else noMlbAux fuel rest

/-- No block comment matched by `remove_comments` spans several lines. -/
def noMultilineBlock (l : List Char) : Bool := noMlbAux l.length l

/-! ## Escape-parity and close-pair folds (invariants of the sanitizer)

`allQEsc q cs k` holds when every occurrence of the quote `q` in `cs` is
escaped, i.e. preceded by an odd-length run of backslashes (`k` is the
length of the backslash run pending at entry); this characterises
failure of `scanLit`.  `noCloseF cs b` holds when `cs` contains no `*/`
pair (`b` records whether the previous character was `*`); this
characterises failure of `findClose`. -/

/-- Every `q` is preceded by an odd backslash run. -/
def allQEsc (q : Char) : List Char → Nat → Bool
  | [], _ => true
  | c :: rest, k =>
    if c = q then decide (k % 2 = 1) && allQEsc q rest 0
    else if c = bslC then allQEsc q rest (k + 1)
    else allQEsc q rest 0

/-- Final backslash-run length after scanning `l` starting from run `k`. -/
def bsRun : List Char → Nat → Nat
  | [], k => k
  | c :: rest, k => if c = bslC then bsRun rest (k + 1) else bsRun rest 0

/-- No adjacent `*` `/` pair (`b`: previous char was `*`). -/
def noCloseF : List Char → Bool → Bool
  | [], _ => true
  | c :: rest, b =>
    if b && c = slashC then false
    else noCloseF rest (c = starC)

/-- Whether the last character is `*` (`b` at entry for empty lists). -/
def starState : List Char → Bool → Bool
  | [], b => b
  | c :: rest, _ => starState rest (c = starC)

/-- Well-formed literal bodies as produced by `scanLit`. -/
inductive CleanBody (q : Char) : List Char → Prop where
  | nil : CleanBody q []
  | esc (d : Char) {b : List Char} : CleanBody q b → CleanBody q (bslC :: d :: b)
  | chr {c : Char} {b : List Char} : c ≠ bslC → c ≠ q → CleanBody q b → CleanBody q (c :: b)

/-! ## Concrete test inputs used by the claims -/

/-- A file of `n` lines, each holding the single character `x`. -/
def xLines (n : Nat) : List Char := (List.replicate n ['x', nlC]).flatten

/-- A function with eleven `if` statements (complexity 12, 13 lines). -/
def elevenIfFile : List Char :=
  "function foo() \x7b\n".data ++ (List.replicate 11 "if (a) b;\n".data).flatten ++ "\x7d".data

/-- The body text of the `elevenIfFile` function (all its lines). -/
def elevenIfBody : List Char := elevenIfFile

/-- A file consisting only of a top-level `if` construct. -/
def controlOnlyFile : List Char := "if (x > 0) \x7b\ny = 1;\n\x7d".data

/-- A file whose only function sits on a single line. -/
def oneLineFuncFile : List Char := "int foo() \x7b return 1; \x7d".data

/-- A recognized function whose braces never re-balance. -/
def unbalancedCaptureFile : List Char := "function foo() \x7b\nif (a) \x7b\ny = 1;".data

/-- More opens than closes, but no function-shaped line: the extractor
never starts capturing. -/
def unbalancedNoCaptureFile : List Char := "x = \x7b".data

/-- A two-line block comment: `remove_comments` collapses it to one line. -/
def mlbExample : List Char := "/*\n*/".data

/-! # Theorems

First the structural lemmas about the scanners, then one theorem per
specification claim. -/

theorem dropToNl_length_le (l : List Char) : (dropToNl l).length ≤ l.length := by
  induction l with
  | nil => simp [dropToNl]
  | cons c rest ih =>
    simp only [dropToNl]
    split
    · exact Nat.le_refl _
    · exact Nat.le_trans ih (Nat.le_succ _)

theorem findClose_length_le : ∀ l r : List Char, findClose l = some r → r.length + 2 ≤ l.length := by
  intro l
  induction l with
  | nil => intro r h; simp [findClose] at h
  | cons c₁ rest ih =>
    intro r h
    match rest, h with
    | [], h => exact Option.noConfusion h
    | c₂ :: rest₂, h =>
      simp only [findClose] at h
      split at h
      · cases h; simp
      · have := ih r h
        simpa using Nat.le_trans this (Nat.le_succ _)

theorem scanLit_decomp (q : Char) :
    ∀ l body rest, scanLit q l = some (body, rest) → l = body ++ q :: rest := by
  suffices h : ∀ n l, List.length l ≤ n →
      ∀ body rest, scanLit q l = some (body, rest) → l = body ++ q :: rest by
    intro l; exact h l.length l (Nat.le_refl _)
  intro n
  induction n with
  | zero =>
    intro l hl body rest h
    have : l = [] := List.eq_nil_of_length_eq_zero (Nat.le_zero.mp hl)
    subst this
    rw [scanLit.eq_def] at h; exact Option.noConfusion h
  | succ n ih =>
    intro l hl body rest h
    match l, hl with
    | [], _ => rw [scanLit.eq_def] at h; exact Option.noConfusion h
    | c :: tl, hl =>
      rw [scanLit.eq_def] at h
      simp only at h
      split at h
      · rename_i hc
        cases h; simp [hc]
      · split at h
        · split at h
          · exact Option.noConfusion h
          · rename_i hq hb d tl₂
            split at h
            · rename_i b₂ r₂ hsc
              cases h
              have := ih tl₂ (by simp at hl; omega) _ _ hsc
              simp [this]
            · exact Option.noConfusion h
        · split at h
          · rename_i hq hb b₂ r₂ hsc
            cases h
            have := ih tl (by simp at hl; omega) _ _ hsc
            simp [this]
          · exact Option.noConfusion h

theorem scanLit_rest_length (q : Char) (l body rest : List Char)
    (h : scanLit q l = some (body, rest)) : rest.length < l.length := by
  have := scanLit_decomp q l body rest h
  subst this
  simp
  omega

/-- Unfolding equation of `rcAux` at positive fuel on a cons cell. -/
theorem rcAux_succ_cons (fuel : Nat) (c : Char) (rest : List Char) :
    rcAux (fuel + 1) (c :: rest) =
      (if c = slashC then
        match rest with
        | [] => [c]
        | d :: rest₂ =>
          if d = slashC then spC :: rcAux fuel (dropToNl rest₂)
          else if d = starC then
            match findClose rest₂ with
            | some rest₃ => spC :: rcAux fuel rest₃
            | none => c :: rcAux fuel (d :: rest₂)
          else c :: rcAux fuel (d :: rest₂)
      else if c = sqC ∨ c = dqC then
        match scanLit c rest with
        | some (body, rest') => c :: body ++ c :: rcAux fuel rest'
        | none => c :: rcAux fuel rest
      else c :: rcAux fuel rest) := rfl

/-- The result of `rcAux` does not depend on the fuel once the fuel
covers the input length. -/
theorem rcAux_congr : ∀ f g l, l.length ≤ f → l.length ≤ g → rcAux f l = rcAux g l := by
  intro f
  induction f with
  | zero =>
    intro g l hf hg
    have hl : l = [] := List.eq_nil_of_length_eq_zero (Nat.le_zero.mp hf)
    subst hl
    cases g <;> rfl
  | succ f ih =>
    intro g l hf hg
    cases l with
    | nil => cases g <;> rfl
    | cons c rest =>
      cases g with
      | zero => simp at hg
      | succ g =>
        rw [rcAux_succ_cons, rcAux_succ_cons]
        simp only [List.length_cons] at hf hg
        by_cases hc : c = slashC
        · simp only [if_pos hc]
          cases rest with
          | nil => rfl
          | cons d rest₂ =>
            simp only [List.length_cons] at hf hg
            by_cases hd : d = slashC
            · simp only [if_pos hd]
              have h1 := dropToNl_length_le rest₂
              rw [ih g (dropToNl rest₂) (by omega) (by omega)]
            · simp only [if_neg hd]
              by_cases hs : d = starC
              · simp only [if_pos hs]
                cases hfc : findClose rest₂ with
                | some r₃ =>
                  have h1 := findClose_length_le rest₂ r₃ hfc
                  show spC :: rcAux f r₃ = spC :: rcAux g r₃
                  rw [ih g r₃ (by omega) (by omega)]
                | none =>
                  show c :: rcAux f (d :: rest₂) = c :: rcAux g (d :: rest₂)
                  rw [ih g (d :: rest₂) (by simp; omega) (by simp; omega)]
              · simp only [if_neg hs]
                rw [ih g (d :: rest₂) (by simp; omega) (by simp; omega)]
        · simp only [if_neg hc]
          by_cases hq : c = sqC ∨ c = dqC
          · simp only [if_pos hq]
            cases hsc : scanLit c rest with
            | some pr =>
              obtain ⟨b, r⟩ := pr
              have := scanLit_rest_length c rest b r hsc
              show c :: b ++ c :: rcAux f r = c :: b ++ c :: rcAux g r
              rw [ih g r (by omega) (by omega)]
            | none =>
              show c :: rcAux f rest = c :: rcAux g rest
              rw [ih g rest (by omega) (by omega)]
          · simp only [if_neg hq]
            rw [ih g rest (by omega) (by omega)]

/-! ## Case equations for `remove_comments` -/

theorem rc_nil : remove_comments [] = [] := rfl

theorem rc_ord (c : Char) (rest : List Char) (hc : ¬c = slashC) (hq : ¬(c = sqC ∨ c = dqC)) :
    remove_comments (c :: rest) = c :: remove_comments rest := by
  show rcAux (rest.length + 1) (c :: rest) = c :: rcAux rest.length rest
  rw [rcAux_succ_cons]
  simp only [if_neg hc, if_neg hq]

theorem rc_slash_nil : remove_comments [slashC] = [slashC] := by decide

theorem rc_line (rest : List Char) :
    remove_comments (slashC :: slashC :: rest) = spC :: remove_comments (dropToNl rest) := by
  show rcAux (rest.length + 1 + 1) (slashC :: slashC :: rest) = _
  rw [rcAux_succ_cons]
  simp only [if_pos rfl]
  show spC :: rcAux (rest.length + 1) (dropToNl rest) = spC :: rcAux (dropToNl rest).length (dropToNl rest)
  have := dropToNl_length_le rest
  rw [rcAux_congr (rest.length + 1) (dropToNl rest).length (dropToNl rest) (by omega) (by omega)]

theorem rc_block_some (rest r : List Char) (h : findClose rest = some r) :
    remove_comments (slashC :: starC :: rest) = spC :: remove_comments r := by
  have hlen := findClose_length_le rest r h
  show rcAux (rest.length + 1 + 1) (slashC :: starC :: rest) = _
  rw [rcAux_succ_cons]
  show (match findClose rest with
        | some rest₃ => spC :: rcAux (rest.length + 1) rest₃
        | none => slashC :: rcAux (rest.length + 1) (starC :: rest)) = spC :: remove_comments r
  rw [h]
  show spC :: rcAux (rest.length + 1) r = spC :: rcAux r.length r
  rw [rcAux_congr (rest.length + 1) r.length r (by omega) (by omega)]

theorem rc_block_none (rest : List Char) (h : findClose rest = none) :
    remove_comments (slashC :: starC :: rest) = slashC :: remove_comments (starC :: rest) := by
  show rcAux (rest.length + 1 + 1) (slashC :: starC :: rest) = _
  rw [rcAux_succ_cons]
  show (match findClose rest with
        | some rest₃ => spC :: rcAux (rest.length + 1) rest₃
        | none => slashC :: rcAux (rest.length + 1) (starC :: rest)) =
      slashC :: remove_comments (starC :: rest)
  rw [h]
  rfl

theorem rc_slash_other (d : Char) (rest : List Char) (hd : ¬d = slashC) (hs : ¬d = starC) :
    remove_comments (slashC :: d :: rest) = slashC :: remove_comments (d :: rest) := by
  show rcAux (rest.length + 1 + 1) (slashC :: d :: rest) = _
  rw [rcAux_succ_cons]
  show (if slashC = slashC then
          if d = slashC then spC :: rcAux (rest.length + 1) (dropToNl rest)
          else if d = starC then
            match findClose rest with
            | some rest₃ => spC :: rcAux (rest.length + 1) rest₃
            | none => slashC :: rcAux (rest.length + 1) (d :: rest)
          else slashC :: rcAux (rest.length + 1) (d :: rest)
        else if slashC = sqC ∨ slashC = dqC then
          match scanLit slashC (d :: rest) with
          | some (body, rest') => slashC :: body ++ slashC :: rcAux (rest.length + 1) rest'
          | none => slashC :: rcAux (rest.length + 1) (d :: rest)
        else slashC :: rcAux (rest.length + 1) (d :: rest)) =
      slashC :: remove_comments (d :: rest)
  rw [if_pos rfl, if_neg hd, if_neg hs]
  rfl

theorem rc_lit_some (c : Char) (rest b r : List Char) (hq : c = sqC ∨ c = dqC)
    (h : scanLit c rest = some (b, r)) :
    remove_comments (c :: rest) = c :: b ++ c :: remove_comments r := by
  have hlen := scanLit_rest_length c rest b r h
  rcases hq with rfl | rfl
  · show rcAux (rest.length + 1) (sqC :: rest) = sqC :: b ++ sqC :: remove_comments r
    rw [rcAux_succ_cons, h]
    show sqC :: b ++ sqC :: rcAux rest.length r = sqC :: b ++ sqC :: rcAux r.length r
    rw [rcAux_congr rest.length r.length r (by omega) (by omega)]
  · show rcAux (rest.length + 1) (dqC :: rest) = dqC :: b ++ dqC :: remove_comments r
    rw [rcAux_succ_cons, h]
    show dqC :: b ++ dqC :: rcAux rest.length r = dqC :: b ++ dqC :: rcAux r.length r
    rw [rcAux_congr rest.length r.length r (by omega) (by omega)]

theorem rc_lit_none (c : Char) (rest : List Char) (hq : c = sqC ∨ c = dqC)
    (h : scanLit c rest = none) :
    remove_comments (c :: rest) = c :: remove_comments rest := by
  rcases hq with rfl | rfl
  · show rcAux (rest.length + 1) (sqC :: rest) = sqC :: remove_comments rest
    rw [rcAux_succ_cons, h]
    rfl
  · show rcAux (rest.length + 1) (dqC :: rest) = dqC :: remove_comments rest
    rw [rcAux_succ_cons, h]
    rfl

/-! ## Plain text is untouched by the sanitizer -/

theorem rc_id_plain : ∀ l : List Char,
    (∀ c ∈ l, ¬c = slashC ∧ ¬(c = sqC ∨ c = dqC)) → remove_comments l = l := by
  intro l
  induction l with
  | nil => intro _; exact rc_nil
  | cons c rest ih =>
    intro h
    have hc := h c (by simp)
    rw [rc_ord c rest hc.1 hc.2, ih (fun d hd => h d (by simp [hd]))]

theorem xLines_succ (n : Nat) : xLines (n + 1) = 'x' :: nlC :: xLines n := by
  simp [xLines, List.replicate_succ]

theorem xLines_mem : ∀ n : Nat, ∀ c ∈ xLines n, c = 'x' ∨ c = nlC := by
  intro n
  induction n with
  | zero => intro c hc; simp [xLines] at hc
  | succ n ih =>
    intro c hc
    rw [xLines_succ] at hc
    simp only [List.mem_cons] at hc
    rcases hc with rfl | rfl | hc
    · exact Or.inl rfl
    · exact Or.inr rfl
    · exact ih c hc

theorem count_file_loc_xLines : ∀ n : Nat, count_file_loc (xLines n) = n := by
  intro n
  induction n with
  | zero => decide
  | succ n ih =>
    rw [xLines_succ]
    have hx : ¬('x' : Char) = nlC := by decide
    have h1 : splitLines ('x' :: nlC :: xLines n) = ['x'] :: splitLines (xLines n) := by
      rw [splitLines.eq_def]
      simp only [if_neg hx]
      rw [splitLines.eq_def]
      simp
    unfold count_file_loc at ih ⊢
    rw [h1, List.countP_cons]
    have hne : (!(strip ['x']).isEmpty) = true := by decide
    simp [ih, hne]

theorem rc_xLines (n : Nat) : remove_comments (xLines n) = xLines n := by
  refine rc_id_plain _ (fun c hc => ?_)
  rcases xLines_mem n c hc with rfl | rfl <;> exact ⟨by decide, by decide⟩

/-! ## Step lemmas for the extractor -/

theorem stepLine_no_net_open (i : Nat) (line : List Char) (s : ExtState)
    (hf : s.inFunction = false)
    (h : (maskStrings line).count lbC ≤ (maskStrings line).count rbC) :
    stepLine i line s = s := by
  have hlt : ¬((maskStrings line).count rbC < (maskStrings line).count lbC) :=
    Nat.not_lt.mpr h
  unfold stepLine
  simp only [hf, hlt, and_false, if_neg, false_and, if_false]
  simp [hf]

theorem stepLine_keyword (i : Nat) (line : List Char) (s : ExtState) (name : List Char)
    (hf : s.inFunction = false)
    (hm : funcDefMatch (maskStrings line) = some name)
    (hk : name ∈ controlKeywords) :
    stepLine i line s = s := by
  unfold stepLine
  simp only [hm, hf]
  split
  · simp only [if_pos hk, hf]
    simp [hf]
  · simp [hf]

theorem stepLine_balance_no_braces (i : Nat) (line : List Char) (s : ExtState)
    (h0 : (maskStrings line).count lbC = 0) (h1 : (maskStrings line).count rbC = 0) :
    (stepLine i line s).braceBalance = s.braceBalance := by
  unfold stepLine
  simp only [h0, h1, Nat.lt_irrefl, and_false, if_false]
  by_cases hf : s.inFunction
  · simp only [hf, if_true]
    have hb : s.braceBalance + (0 : Int) - (0 : Int) = s.braceBalance := by omega
    split <;> simp_all
  · simp [hf]

/-! ## Literal scanning on clean content and the masking passes -/

theorem scanLit_clean_content (q : Char) (content : List Char)
    (h : ∀ c ∈ content, ¬c = q ∧ ¬c = bslC) :
    ∀ X, scanLit q (content ++ q :: X) = some (content, X) := by
  induction content with
  | nil =>
    intro X
    rw [scanLit.eq_def]
    simp
  | cons c tl ih =>
    intro X
    have hc := h c (by simp)
    rw [scanLit.eq_def]
    simp only [List.cons_append, if_neg hc.1, if_neg hc.2]
    rw [ih (fun d hd => h d (by simp [hd])) X]

/-- Unfolding equation of `maskQAux` at positive fuel on a cons cell. -/
theorem maskQAux_succ_cons (q : Char) (fuel : Nat) (c : Char) (rest : List Char) :
    maskQAux q (fuel + 1) (c :: rest) =
      (if c = q then
        match scanLit q rest with
        | some (_, rest') => q :: q :: maskQAux q fuel rest'
        | none => c :: maskQAux q fuel rest
      else c :: maskQAux q fuel rest) := rfl

theorem maskQAux_no_q (q : Char) : ∀ f l, (∀ c ∈ l, ¬c = q) → maskQAux q f l = l := by
  intro f
  induction f with
  | zero => intro l _; rfl
  | succ f ih =>
    intro l h
    cases l with
    | nil => rfl
    | cons c rest =>
      rw [maskQAux_succ_cons, if_neg (h c (by simp)), ih rest (fun d hd => h d (by simp [hd]))]

theorem maskQ_no_q (q : Char) (l : List Char) (h : ∀ c ∈ l, ¬c = q) : maskQ q l = l :=
  maskQAux_no_q q l.length l h

theorem maskQ_solo_lit (q : Char) (content : List Char)
    (h : ∀ c ∈ content, ¬c = q ∧ ¬c = bslC) :
    maskQ q (q :: content ++ [q]) = [q, q] := by
  have hs := scanLit_clean_content q content h []
  show maskQAux q ((q :: content ++ [q]).length) (q :: content ++ [q]) = [q, q]
  have hlen : (q :: content ++ [q]).length = (content.length + 1) + 1 := by simp
  rw [hlen]
  show maskQAux q (content.length + 1 + 1) (q :: (content ++ [q])) = [q, q]
  rw [maskQAux_succ_cons q (content.length + 1) q (content ++ [q])]
  rw [if_pos rfl, hs]
  rfl

theorem maskStrings_dq_lit (content : List Char)
    (h : ∀ c ∈ content, ¬c = sqC ∧ ¬c = dqC ∧ ¬c = bslC) :
    maskStrings (dqC :: content ++ [dqC]) = [dqC, dqC] := by
  unfold maskStrings
  rw [maskQ_no_q sqC _ ?_]
  · exact maskQ_solo_lit dqC content (fun c hc => ⟨(h c hc).2.1, (h c hc).2.2⟩)
  · intro c hc
    simp only [List.mem_cons, List.mem_append, List.mem_singleton,
      List.not_mem_nil, or_false] at hc
    rcases hc with (rfl | hc) | rfl
    · decide
    · exact (h c hc).1
    · decide

theorem maskStrings_sq_lit (content : List Char)
    (h : ∀ c ∈ content, ¬c = sqC ∧ ¬c = dqC ∧ ¬c = bslC) :
    maskStrings (sqC :: content ++ [sqC]) = [sqC, sqC] := by
  unfold maskStrings
  rw [maskQ_solo_lit sqC content (fun c hc => ⟨(h c hc).1, (h c hc).2.2⟩)]
  exact maskQ_no_q dqC _ (by intro c hc; simp at hc; subst hc; decide)

/-! # Claim theorems -/

/-- Claim C2: `calculate_complexity` returns 1 plus the summed pattern
counts, so a text with exactly 11 whole-word `if` matches and no other
branch keyword or operator matches scores 12; on the concrete
`elevenIfFile` (a 13-line function `foo` with 11 `if` statements) the
analyzer emits exactly one violation line, the complexity violation for
`foo`, and no LOC violation. -/
theorem claim_C2 :
    (∀ t : List Char, countWord "if".data t = 11 → countWord "else if".data t = 0 →
      countWord "for".data t = 0 → countWord "while".data t = 0 →
      countWord "do".data t = 0 → countWord "case".data t = 0 →
      countWord "catch".data t = 0 → countSub ['&', '&'] t = 0 →
      countSub ['|', '|'] t = 0 → countSub ['?'] t = 0 →
      calculate_complexity t = 12) ∧
    analyzeFile elevenIfFile = [funcCompMsg "foo".data 0 12] := by
  constructor
  · intro t h1 h2 h3 h4 h5 h6 h7 h8 h9 h10
    simp [calculate_complexity, h1, h2, h3, h4, h5, h6, h7, h8, h9, h10]
  · decide

/-- Witness for claim C2: the eleven-`if` function body scores 12. -/
theorem claim_C2_witness : calculate_complexity elevenIfBody = 12 :=
  claim_C2.1 elevenIfBody (by decide) (by decide) (by decide) (by decide) (by decide)
    (by decide) (by decide) (by decide) (by decide) (by decide)

/-- Claim C3: the file-LOC threshold is exclusive: a sanitized
meaningful-line count of exactly 500 produces no file-LOC violation
line, and 501 produces exactly one, prepended to the function
violations. -/
theorem claim_C3 (content : List Char) :
    (count_file_loc (remove_comments content) = 500 →
      analyzeFile content = analyze_functions (remove_comments content) []) ∧
    (count_file_loc (remove_comments content) = 501 →
      analyzeFile content = fileLocMsg 501 :: analyze_functions (remove_comments content) []) := by
  have hrw : analyzeFile content =
      (if MAX_FILE_LOC < count_file_loc (remove_comments content)
        then [fileLocMsg (count_file_loc (remove_comments content))] else [])
        ++ analyze_functions (remove_comments content) [] := rfl
  constructor
  · intro h
    rw [hrw, h]
    norm_num [MAX_FILE_LOC]
  · intro h
    rw [hrw, h]
    norm_num [MAX_FILE_LOC]

/-- Witness for claim C3: a 500-line file yields no file-LOC violation,
a 501-line file yields exactly the file-LOC line. -/
theorem claim_C3_witness :
    analyzeFile (xLines 500) = analyze_functions (remove_comments (xLines 500)) [] ∧
    analyzeFile (xLines 501) = fileLocMsg 501 :: analyze_functions (remove_comments (xLines 501)) [] := by
  constructor
  · exact (claim_C3 (xLines 500)).1 (by rw [rc_xLines]; exact count_file_loc_xLines 500)
  · exact (claim_C3 (xLines 501)).2 (by rw [rc_xLines]; exact count_file_loc_xLines 501)

/-- Claim C6: every `if` occurring inside an `else if` is counted by
both the `if` pattern and the `else if` pattern, and both counts are
added to the score; a body consisting of a single `else if` scores
1 + 2 = 3. -/
theorem claim_C6 :
    (∀ t : List Char,
      1 + countWord "if".data t + countWord "else if".data t ≤ calculate_complexity t) ∧
    calculate_complexity "else if".data = 3 ∧
    countWord "if".data "else if".data = 1 ∧
    countWord "else if".data "else if".data = 1 := by
  refine ⟨?_, by decide, by decide, by decide⟩
  intro t
  simp only [calculate_complexity]
  omega

/-- Claim C9: a line whose captured declaration identifier is a reserved
control-flow keyword never starts a capture (the extractor state is
unchanged), and on a file containing only a top-level `if` construct no
region is extracted and no violation produced. -/
theorem claim_C9 :
    (∀ (i : Nat) (line : List Char) (s : ExtState) (name : List Char),
      s.inFunction = false → funcDefMatch (maskStrings line) = some name →
      name ∈ controlKeywords → stepLine i line s = s) ∧
    extractRegions controlOnlyFile = [] ∧
    analyze_functions controlOnlyFile [] = [] := by
  refine ⟨?_, by decide, by decide⟩
  intro i line s name hf hm hk
  exact stepLine_keyword i line s name hf hm hk

/-- Witness for claim C9: the opening line of `controlOnlyFile` matches
the declaration pattern with name `if` and leaves the initial state
unchanged. -/
theorem claim_C9_witness :
    stepLine 0 "if (x > 0) \x7b".data initExtState = initExtState :=
  claim_C9.1 0 "if (x > 0) \x7b".data initExtState "if".data (by decide) (by decide) (by decide)

/-- Claim C10: capture starts only on lines opening strictly more braces
than they close, so when the extractor is scanning, a line whose
open-brace count does not exceed its close-brace count leaves the state
unchanged; a function written entirely on one line is never captured and
yields no region and no violation. -/
theorem claim_C10 :
    (∀ (i : Nat) (line : List Char) (s : ExtState),
      s.inFunction = false →
      (maskStrings line).count lbC ≤ (maskStrings line).count rbC →
      stepLine i line s = s) ∧
    extractRegions oneLineFuncFile = [] ∧
    analyze_functions oneLineFuncFile [] = [] := by
  refine ⟨?_, by decide, by decide⟩
  intro i line s hf h
  exact stepLine_no_net_open i line s hf h

/-- Witness for claim C10: the one-line function leaves the initial
state unchanged. -/
theorem claim_C10_witness :
    stepLine 0 "int foo() \x7b return 1; \x7d".data initExtState = initExtState :=
  claim_C10.1 0 "int foo() \x7b return 1; \x7d".data initExtState (by decide) (by decide)

/-- Claim C8: a line consisting solely of a string or character literal
(contents free of quotes and backslashes, braces allowed) masks to an
empty literal, so the brace-depth counter is unchanged by that line. -/
theorem claim_C8 (content : List Char) (i : Nat) (s : ExtState)
    (h : ∀ c ∈ content, ¬c = sqC ∧ ¬c = dqC ∧ ¬c = bslC) :
    (maskStrings (dqC :: content ++ [dqC])).count lbC = 0 ∧
    (maskStrings (dqC :: content ++ [dqC])).count rbC = 0 ∧
    (stepLine i (dqC :: content ++ [dqC]) s).braceBalance = s.braceBalance ∧
    (stepLine i (sqC :: content ++ [sqC]) s).braceBalance = s.braceBalance := by
  have hd := maskStrings_dq_lit content h
  have hs := maskStrings_sq_lit content h
  refine ⟨by rw [hd]; decide, by rw [hd]; decide, ?_, ?_⟩
  · exact stepLine_balance_no_braces i _ s (by rw [hd]; decide) (by rw [hd]; decide)
  · exact stepLine_balance_no_braces i _ s (by rw [hs]; decide) (by rw [hs]; decide)

/-- Witness for claim C8: a literal containing both braces perturbs
neither the mask counts nor the balance of a capturing state. -/
theorem claim_C8_witness :
    (maskStrings (dqC :: ['a', lbC, rbC, 'b'] ++ [dqC])).count lbC = 0 ∧
    (maskStrings (dqC :: ['a', lbC, rbC, 'b'] ++ [dqC])).count rbC = 0 ∧
    (stepLine 3 (dqC :: ['a', lbC, rbC, 'b'] ++ [dqC])
      { inFunction := true, braceBalance := 2, funcStartLine := 1,
        funcName := "foo".data, funcContent := [], violations := [] }).braceBalance = 2 ∧
    (stepLine 3 (sqC :: ['a', lbC, rbC, 'b'] ++ [sqC])
      { inFunction := true, braceBalance := 2, funcStartLine := 1,
        funcName := "foo".data, funcContent := [], violations := [] }).braceBalance = 2 :=
  claim_C8 ['a', lbC, rbC, 'b'] 3
    { inFunction := true, braceBalance := 2, funcStartLine := 1,
      funcName := "foo".data, funcContent := [], violations := [] }
    (by decide)

/-! ## The violation list is the flattened per-region list, in order -/

theorem stepLine_violations (i : Nat) (l : List Char) (s : ExtState) :
    (stepLine i l s).violations =
      s.violations ++ ((stepRegions i l s).map regionViols).flatten := by
  simp only [stepLine, stepRegions]
  repeat' split
  all_goals simp_all [regionViols]

theorem extractGo_violations : ∀ (lines : List (List Char)) (i : Nat) (s : ExtState),
    (extractGo i lines s).violations =
      s.violations ++ ((regionsFrom i lines s).map regionViols).flatten := by
  intro lines
  induction lines with
  | nil => intro i s; simp [extractGo, regionsFrom]
  | cons l ls ih =>
    intro i s
    simp only [extractGo, regionsFrom]
    rw [ih (i + 1) (stepLine i l s), stepLine_violations]
    simp [List.append_assoc]

/-- Claim C4: for every analyzed file the violation strings come in this
order: the file-level LOC violation (if any) first, then, for each
extracted region in extraction order, its LOC violation (if any)
followed by its complexity violation (if any). -/
theorem claim_C4 (content : List Char) :
    analyzeFile content =
      (if MAX_FILE_LOC < count_file_loc (remove_comments content)
        then [fileLocMsg (count_file_loc (remove_comments content))] else [])
        ++ ((extractRegions (remove_comments content)).map regionViols).flatten := by
  have hrw : analyzeFile content =
      (if MAX_FILE_LOC < count_file_loc (remove_comments content)
        then [fileLocMsg (count_file_loc (remove_comments content))] else [])
        ++ analyze_functions (remove_comments content) [] := rfl
  rw [hrw]
  congr 1
  unfold analyze_functions extractRegions
  rw [extractGo_violations]
  simp [initExtState]

/-! ## Unfinished regions are silently dropped -/

theorem stepLine_capturing_no_viol (i : Nat) (l : List Char) (s : ExtState)
    (h : (stepLine i l s).inFunction = true) :
    (stepLine i l s).violations = s.violations := by
  revert h
  simp only [stepLine]
  repeat' split
  all_goals simp_all

/-- Claim C7 (amended): while a step leaves the extractor in the
capturing state, no violation is appended, so a region whose braces
never re-balance is silently dropped: on `unbalancedCaptureFile` (more
opens than closes) the extractor ends still capturing and reports
nothing, without any error. -/
theorem claim_C7 :
    (∀ (i : Nat) (l : List Char) (s : ExtState),
      (stepLine i l s).inFunction = true →
      (stepLine i l s).violations = s.violations) ∧
    (extractFinal unbalancedCaptureFile).inFunction = true ∧
    analyze_functions unbalancedCaptureFile [] = [] := by
  refine ⟨?_, by decide, by decide⟩
  intro i l s h
  exact stepLine_capturing_no_viol i l s h

/-- Witness for claim C7: a step of the unbalanced capture stays in the
capturing state and appends no violation. -/
theorem claim_C7_witness :
    (stepLine 1 "if (a) \x7b".data
      { inFunction := true, braceBalance := 1, funcStartLine := 0,
        funcName := "foo".data, funcContent := ["function foo() \x7b".data],
        violations := [] }).violations = [] :=
  claim_C7.1 1 "if (a) \x7b".data
    { inFunction := true, braceBalance := 1, funcStartLine := 0,
      funcName := "foo".data, funcContent := ["function foo() \x7b".data],
      violations := [] } (by decide)

/-- Counterexample to claim C7 as stated: this file has strictly more
opening than closing braces, yet the extractor finishes in the scanning
state, not the capturing state (no capture ever starts). -/
theorem claim_C7_counterexample :
    unbalancedNoCaptureFile.count rbC < unbalancedNoCaptureFile.count lbC ∧
    (extractFinal unbalancedNoCaptureFile).inFunction = false := by
  constructor <;> decide

/-! ## Newline counting through the sanitizer -/

theorem countNl_cons (a : Char) (l : List Char) :
    countNl (a :: l) = countNl l + (if a = nlC then 1 else 0) := by
  simp only [countNl, List.count_cons]
  by_cases ha : a = nlC <;> simp [ha]

theorem countNl_append (u v : List Char) : countNl (u ++ v) = countNl u + countNl v := by
  simp [countNl, List.count_append]

theorem countNl_dropToNl : ∀ l : List Char, countNl (dropToNl l) = countNl l := by
  intro l
  induction l with
  | nil => rfl
  | cons c rest ih =>
    by_cases hc : c = nlC
    · have hstep : dropToNl (c :: rest) = c :: rest := by
        show (if c = nlC then c :: rest else dropToNl rest) = c :: rest
        rw [if_pos hc]
      rw [hstep]
    · have hstep : dropToNl (c :: rest) = dropToNl rest := by
        show (if c = nlC then c :: rest else dropToNl rest) = dropToNl rest
        rw [if_neg hc]
      rw [hstep, ih, countNl_cons, if_neg hc]
      omega

theorem splitLines_length : ∀ l : List Char, (splitLines l).length = countNl l + 1 := by
  intro l
  induction l with
  | nil => simp [splitLines, countNl]
  | cons c rest ih =>
    rw [splitLines.eq_def]
    by_cases hc : c = nlC
    · simp only [if_pos hc]
      simp only [List.length_cons, ih, countNl_cons, if_pos hc]
    · simp only [if_neg hc]
      cases hsp : splitLines rest with
      | nil => rw [hsp] at ih; simp at ih
      | cons p ps =>
        rw [hsp] at ih
        simp only [List.length_cons] at ih ⊢
        rw [countNl_cons, if_neg hc]
        omega

/-- Unfolding equation of `noMlbAux` at positive fuel on a cons cell. -/
theorem noMlbAux_succ_cons (fuel : Nat) (c : Char) (rest : List Char) :
    noMlbAux (fuel + 1) (c :: rest) =
      (if c = slashC then
        match rest with
        | [] => true
        | d :: rest₂ =>
          if d = slashC then noMlbAux fuel (dropToNl rest₂)
          else if d = starC then
            match findClose rest₂ with
            | some rest₃ => countNl rest₂ = countNl rest₃ && noMlbAux fuel rest₃
            | none => noMlbAux fuel (d :: rest₂)
          else noMlbAux fuel (d :: rest₂)
      else if c = sqC ∨ c = dqC then
        match scanLit c rest with
        | some (_, rest') => noMlbAux fuel rest'
        | none => noMlbAux fuel rest
      else noMlbAux fuel rest) := rfl

theorem noMlbAux_congr : ∀ f g l, l.length ≤ f → l.length ≤ g → noMlbAux f l = noMlbAux g l := by
  intro f
  induction f with
  | zero =>
    intro g l hf hg
    have hl : l = [] := List.eq_nil_of_length_eq_zero (Nat.le_zero.mp hf)
    subst hl
    cases g <;> rfl
  | succ f ih =>
    intro g l hf hg
    cases l with
    | nil => cases g <;> rfl
    | cons c rest =>
      cases g with
      | zero => simp at hg
      | succ g =>
        rw [noMlbAux_succ_cons, noMlbAux_succ_cons]
        simp only [List.length_cons] at hf hg
        by_cases hc : c = slashC
        · simp only [if_pos hc]
          cases rest with
          | nil => rfl
          | cons d rest₂ =>
            simp only [List.length_cons] at hf hg
            by_cases hd : d = slashC
            · simp only [if_pos hd]
              have h1 := dropToNl_length_le rest₂
              rw [ih g (dropToNl rest₂) (by omega) (by omega)]
            · simp only [if_neg hd]
              by_cases hs : d = starC
              · simp only [if_pos hs]
                cases hfc : findClose rest₂ with
                | some r₃ =>
                  have h1 := findClose_length_le rest₂ r₃ hfc
                  show (decide (countNl rest₂ = countNl r₃) && noMlbAux f r₃) =
                    (decide (countNl rest₂ = countNl r₃) && noMlbAux g r₃)
                  rw [ih g r₃ (by omega) (by omega)]
                | none =>
                  show noMlbAux f (d :: rest₂) = noMlbAux g (d :: rest₂)
                  rw [ih g (d :: rest₂) (by simp; omega) (by simp; omega)]
              · simp only [if_neg hs]
                rw [ih g (d :: rest₂) (by simp; omega) (by simp; omega)]
        · simp only [if_neg hc]
          by_cases hq : c = sqC ∨ c = dqC
          · simp only [if_pos hq]
            cases hsc : scanLit c rest with
            | some pr =>
              obtain ⟨b, r⟩ := pr
              have := scanLit_rest_length c rest b r hsc
              show noMlbAux f r = noMlbAux g r
              rw [ih g r (by omega) (by omega)]
            | none =>
              show noMlbAux f rest = noMlbAux g rest
              rw [ih g rest (by omega) (by omega)]
          · simp only [if_neg hq]
            rw [ih g rest (by omega) (by omega)]

/-! ## Case equations for `noMultilineBlock` -/

theorem noMlb_ord (c : Char) (rest : List Char) (hc : ¬c = slashC) (hq : ¬(c = sqC ∨ c = dqC)) :
    noMultilineBlock (c :: rest) = noMultilineBlock rest := by
  show noMlbAux (rest.length + 1) (c :: rest) = noMlbAux rest.length rest
  rw [noMlbAux_succ_cons]
  simp only [if_neg hc, if_neg hq]

theorem noMlb_line (rest : List Char) :
    noMultilineBlock (slashC :: slashC :: rest) = noMultilineBlock (dropToNl rest) := by
  show noMlbAux (rest.length + 1 + 1) (slashC :: slashC :: rest) = _
  rw [noMlbAux_succ_cons]
  show noMlbAux (rest.length + 1) (dropToNl rest) = noMlbAux (dropToNl rest).length (dropToNl rest)
  have := dropToNl_length_le rest
  rw [noMlbAux_congr (rest.length + 1) (dropToNl rest).length (dropToNl rest) (by omega) (by omega)]

theorem noMlb_block_some (rest r : List Char) (h : findClose rest = some r) :
    noMultilineBlock (slashC :: starC :: rest) =
      (decide (countNl rest = countNl r) && noMultilineBlock r) := by
  have hlen := findClose_length_le rest r h
  show noMlbAux (rest.length + 1 + 1) (slashC :: starC :: rest) = _
  rw [noMlbAux_succ_cons]
  show (match findClose rest with
        | some rest₃ => decide (countNl rest = countNl rest₃) && noMlbAux (rest.length + 1) rest₃
        | none => noMlbAux (rest.length + 1) (starC :: rest)) = _
  rw [h]
  show (decide (countNl rest = countNl r) && noMlbAux (rest.length + 1) r) =
    (decide (countNl rest = countNl r) && noMlbAux r.length r)
  rw [noMlbAux_congr (rest.length + 1) r.length r (by omega) (by omega)]

theorem noMlb_block_none (rest : List Char) (h : findClose rest = none) :
    noMultilineBlock (slashC :: starC :: rest) = noMultilineBlock (starC :: rest) := by
  show noMlbAux (rest.length + 1 + 1) (slashC :: starC :: rest) = _
  rw [noMlbAux_succ_cons]
  show (match findClose rest with
        | some rest₃ => decide (countNl rest = countNl rest₃) && noMlbAux (rest.length + 1) rest₃
        | none => noMlbAux (rest.length + 1) (starC :: rest)) = _
  rw [h]
  rfl

theorem noMlb_slash_other (d : Char) (rest : List Char) (hd : ¬d = slashC) (hs : ¬d = starC) :
    noMultilineBlock (slashC :: d :: rest) = noMultilineBlock (d :: rest) := by
  show noMlbAux (rest.length + 1 + 1) (slashC :: d :: rest) = _
  rw [noMlbAux_succ_cons]
  show (if d = slashC then noMlbAux (rest.length + 1) (dropToNl rest)
        else if d = starC then
          match findClose rest with
          | some rest₃ => decide (countNl rest = countNl rest₃) && noMlbAux (rest.length + 1) rest₃
          | none => noMlbAux (rest.length + 1) (d :: rest)
        else noMlbAux (rest.length + 1) (d :: rest)) = noMultilineBlock (d :: rest)
  rw [if_neg hd, if_neg hs]
  rfl

theorem noMlb_lit_some (c : Char) (rest b r : List Char) (hq : c = sqC ∨ c = dqC)
    (h : scanLit c rest = some (b, r)) :
    noMultilineBlock (c :: rest) = noMultilineBlock r := by
  have hlen := scanLit_rest_length c rest b r h
  rcases hq with rfl | rfl
  all_goals
    show noMlbAux (rest.length + 1) (_ :: rest) = _
    rw [noMlbAux_succ_cons, h]
    show noMlbAux rest.length r = noMlbAux r.length r
    rw [noMlbAux_congr rest.length r.length r (by omega) (by omega)]

theorem noMlb_lit_none (c : Char) (rest : List Char) (hq : c = sqC ∨ c = dqC)
    (h : scanLit c rest = none) :
    noMultilineBlock (c :: rest) = noMultilineBlock rest := by
  rcases hq with rfl | rfl
  all_goals
    show noMlbAux (rest.length + 1) (_ :: rest) = _
    rw [noMlbAux_succ_cons, h]
    rfl

/-! ## The sanitizer preserves newline count without multi-line blocks -/

theorem ifnl_sp : (if spC = nlC then (1 : Nat) else 0) = 0 := by decide

theorem ifnl_slash : (if slashC = nlC then (1 : Nat) else 0) = 0 := by decide

theorem ifnl_star : (if starC = nlC then (1 : Nat) else 0) = 0 := by decide

theorem rc_countNl : ∀ (n : Nat) (l : List Char), l.length ≤ n →
    noMultilineBlock l = true → countNl (remove_comments l) = countNl l := by
  intro n
  induction n with
  | zero =>
    intro l hl _
    have : l = [] := List.eq_nil_of_length_eq_zero (Nat.le_zero.mp hl)
    subst this; rfl
  | succ n ih =>
    intro l hl hmlb
    match l with
    | [] => rfl
    | c :: rest =>
      simp only [List.length_cons] at hl
      by_cases hc : c = slashC
      · subst hc
        match rest with
        | [] => rw [rc_slash_nil]
        | d :: rest₂ =>
          simp only [List.length_cons] at hl
          by_cases hd : d = slashC
          · subst hd
            rw [rc_line, noMlb_line] at *
            have h1 := dropToNl_length_le rest₂
            have h2 := ih (dropToNl rest₂) (by omega) hmlb
            simp only [countNl_cons, ifnl_sp, ifnl_slash] at h2 ⊢
            rw [h2, countNl_dropToNl]
          · by_cases hs : d = starC
            · subst hs
              cases hfc : findClose rest₂ with
              | some r =>
                have hlen := findClose_length_le rest₂ r hfc
                rw [rc_block_some _ _ hfc]
                rw [noMlb_block_some _ _ hfc, Bool.and_eq_true, decide_eq_true_eq] at hmlb
                have h2 := ih r (by omega) hmlb.2
                simp only [countNl_cons, ifnl_sp, ifnl_slash, ifnl_star] at h2 ⊢
                rw [h2, hmlb.1]
              | none =>
                rw [rc_block_none _ hfc]
                rw [noMlb_block_none _ hfc] at hmlb
                have h2 := ih (starC :: rest₂) (by simp; omega) hmlb
                simp only [countNl_cons, ifnl_slash, ifnl_star] at h2 ⊢
                omega
            · rw [rc_slash_other d rest₂ hd hs]
              rw [noMlb_slash_other d rest₂ hd hs] at hmlb
              have h2 := ih (d :: rest₂) (by simp; omega) hmlb
              simp only [countNl_cons, ifnl_slash] at h2 ⊢
              omega
      · by_cases hq : c = sqC ∨ c = dqC
        · cases hsc : scanLit c rest with
          | some pr =>
            obtain ⟨b, r⟩ := pr
            have hlen := scanLit_rest_length c rest b r hsc
            have hdec := scanLit_decomp c rest b r hsc
            rw [rc_lit_some c rest b r hq hsc]
            rw [noMlb_lit_some c rest b r hq hsc] at hmlb
            have h2 := ih r (by omega) hmlb
            rw [hdec]
            simp only [countNl_cons, countNl_append] at h2 ⊢
            omega
          | none =>
            rw [rc_lit_none c rest hq hsc]
            rw [noMlb_lit_none c rest hq hsc] at hmlb
            have h2 := ih rest (by omega) hmlb
            simp only [countNl_cons] at h2 ⊢
            omega
        · rw [rc_ord c rest hc hq]
          rw [noMlb_ord c rest hc hq] at hmlb
          have h2 := ih rest (by omega) hmlb
          simp only [countNl_cons] at h2 ⊢
          omega

/-- Claim C1 (amended): when no block comment spans several lines,
`remove_comments` preserves the number of newline-delimited lines (each
comment is replaced by a single space on its line); a multi-line block
comment instead collapses its lines into one. -/
theorem claim_C1 (t : List Char) (h : noMultilineBlock t = true) :
    (splitLines (remove_comments t)).length = (splitLines t).length := by
  rw [splitLines_length, splitLines_length, rc_countNl t.length t (Nat.le_refl _) h]

/-- Witness for claim C1: a file with a line comment and a single-line
block comment keeps its two lines. -/
theorem claim_C1_witness :
    noMultilineBlock "a // b\nc /* d */ e".data = true ∧
    (splitLines (remove_comments "a // b\nc /* d */ e".data)).length =
      (splitLines "a // b\nc /* d */ e".data).length :=
  ⟨by decide, claim_C1 "a // b\nc /* d */ e".data (by decide)⟩

/-- Counterexample to claim C1 as stated: a block comment spanning two
lines is replaced by a single space, so the sanitized text has one line
where the input had two. -/
theorem claim_C1_counterexample :
    remove_comments mlbExample = [spC] ∧
    (splitLines mlbExample).length = 2 ∧
    (splitLines (remove_comments mlbExample)).length = 1 ∧
    ¬((splitLines (remove_comments mlbExample)).length = (splitLines mlbExample).length) := by
  refine ⟨by decide, by decide, by decide, by decide⟩

/-! ## Case equations for `scanLit` -/

theorem scanLit_nil (q : Char) : scanLit q [] = none := by rw [scanLit.eq_def]

theorem scanLit_eq_q (q c : Char) (rest : List Char) (hc : c = q) :
    scanLit q (c :: rest) = some ([], rest) := by
  rw [scanLit.eq_def]
  simp only
  rw [if_pos hc]

theorem scanLit_bsl_nil (q c : Char) (hcq : ¬c = q) (hcb : c = bslC) :
    scanLit q [c] = none := by
  rw [scanLit.eq_def]
  simp only
  rw [if_neg hcq, if_pos hcb]

theorem scanLit_bsl_cons (q c d : Char) (tl : List Char) (hcq : ¬c = q) (hcb : c = bslC) :
    scanLit q (c :: d :: tl) =
      (match scanLit q tl with
       | some (body, r) => some (c :: d :: body, r)
       | none => none) := by
  rw [scanLit.eq_def]
  simp only
  rw [if_neg hcq, if_pos hcb]

theorem scanLit_ord_cons (q c : Char) (rest : List Char) (hcq : ¬c = q) (hcb : ¬c = bslC) :
    scanLit q (c :: rest) =
      (match scanLit q rest with
       | some (body, r) => some (c :: body, r)
       | none => none) := by
  rw [scanLit.eq_def]
  simp only
  rw [if_neg hcq, if_neg hcb]

theorem scanLit_bsl_none (q c d : Char) (tl : List Char) (hcq : ¬c = q) (hcb : c = bslC) :
    (scanLit q (c :: d :: tl) = none) ↔ (scanLit q tl = none) := by
  rw [scanLit_bsl_cons q c d tl hcq hcb]
  cases scanLit q tl with
  | none => simp
  | some pr => obtain ⟨b, r⟩ := pr; simp

theorem scanLit_cons_none (q c : Char) (rest : List Char) (hcq : ¬c = q) (hcb : ¬c = bslC) :
    (scanLit q (c :: rest) = none) ↔ (scanLit q rest = none) := by
  rw [scanLit_ord_cons q c rest hcq hcb]
  cases scanLit q rest with
  | none => simp
  | some pr => obtain ⟨b, r⟩ := pr; simp

/-! ## Well-formed literal bodies -/

theorem scanLit_cleanBody (q : Char) :
    ∀ l body rest, scanLit q l = some (body, rest) → CleanBody q body := by
  suffices h : ∀ n l, List.length l ≤ n →
      ∀ body rest, scanLit q l = some (body, rest) → CleanBody q body by
    intro l; exact h l.length l (Nat.le_refl _)
  intro n
  induction n with
  | zero =>
    intro l hl body rest h
    have : l = [] := List.eq_nil_of_length_eq_zero (Nat.le_zero.mp hl)
    subst this
    rw [scanLit_nil] at h
    exact Option.noConfusion h
  | succ n ih =>
    intro l hl body rest h
    match l, hl with
    | [], _ => rw [scanLit_nil] at h; exact Option.noConfusion h
    | c :: tl, hl =>
      simp only [List.length_cons] at hl
      by_cases hcq : c = q
      · rw [scanLit_eq_q q c tl hcq] at h
        have h' : ([] : List Char) = body := congrArg Prod.fst (Option.some.inj h)
        rw [← h']
        exact CleanBody.nil
      · by_cases hcb : c = bslC
        · match tl, hl with
          | [], _ =>
            rw [scanLit_bsl_nil q c hcq hcb] at h
            exact Option.noConfusion h
          | d :: tl₂, hl =>
            simp only [List.length_cons] at hl
            rw [scanLit_bsl_cons q c d tl₂ hcq hcb] at h
            cases hsc : scanLit q tl₂ with
            | none => rw [hsc] at h; exact Option.noConfusion h
            | some pr =>
              obtain ⟨b₂, r₂⟩ := pr
              rw [hsc] at h
              have h' : some (c :: d :: b₂, r₂) = some (body, rest) := h
              have hb : c :: d :: b₂ = body := congrArg Prod.fst (Option.some.inj h')
              rw [← hb]
              subst hcb
              exact CleanBody.esc d (ih tl₂ (by omega) _ _ hsc)
        · rw [scanLit_ord_cons q c tl hcq hcb] at h
          cases hsc : scanLit q tl with
          | none => rw [hsc] at h; exact Option.noConfusion h
          | some pr =>
            obtain ⟨b₂, r₂⟩ := pr
            rw [hsc] at h
            have h' : some (c :: b₂, r₂) = some (body, rest) := h
            have hb : c :: b₂ = body := congrArg Prod.fst (Option.some.inj h')
            rw [← hb]
            exact CleanBody.chr hcb hcq (ih tl (by omega) _ _ hsc)

theorem scanLit_replay (q : Char) (hq : ¬q = bslC) :
    ∀ b : List Char, CleanBody q b → ∀ X, scanLit q (b ++ q :: X) = some (b, X) := by
  intro b hb
  induction hb with
  | nil =>
    intro X
    rw [List.nil_append]
    exact scanLit_eq_q q q X rfl
  | esc d hb ih =>
    intro X
    have hbq : ¬bslC = q := fun h => hq h.symm
    rw [List.cons_append, List.cons_append, scanLit_bsl_cons q bslC d _ hbq rfl, ih X]
  | chr hcb hcq hb ih =>
    intro X
    rw [List.cons_append, scanLit_ord_cons q _ _ hcq hcb, ih X]

/-! ## Unfolding equations for the Bool folds -/

theorem allQEsc_cons (q c : Char) (rest : List Char) (k : Nat) :
    allQEsc q (c :: rest) k =
      (if c = q then decide (k % 2 = 1) && allQEsc q rest 0
      else if c = bslC then allQEsc q rest (k + 1)
      else allQEsc q rest 0) := rfl

theorem bsRun_cons (c : Char) (rest : List Char) (k : Nat) :
    bsRun (c :: rest) k = (if c = bslC then bsRun rest (k + 1) else bsRun rest 0) := rfl

theorem noCloseF_cons (c : Char) (rest : List Char) (b : Bool) :
    noCloseF (c :: rest) b =
      (if b && c = slashC then false else noCloseF rest (c = starC)) := rfl

theorem starState_cons (c : Char) (rest : List Char) (b : Bool) :
    starState (c :: rest) b = starState rest (c = starC) := rfl

/-! ## The escape-parity characterisation of literal-scan failure -/

theorem allQEsc_parity (q : Char) :
    ∀ (l : List Char) (k : Nat), allQEsc q l (k + 2) = allQEsc q l k := by
  intro l
  induction l with
  | nil => intro k; rfl
  | cons c rest ih =>
    intro k
    rw [allQEsc_cons, allQEsc_cons]
    by_cases hcq : c = q
    · simp only [if_pos hcq]
      have hmod : (k + 2) % 2 = k % 2 := by omega
      rw [hmod]
    · simp only [if_neg hcq]
      by_cases hcb : c = bslC
      · simp only [if_pos hcb]
        have hadd : k + 2 + 1 = (k + 1) + 2 := by omega
        rw [hadd, ih]
      · simp only [if_neg hcb]

theorem allQEsc_append (q : Char) (hq : ¬q = bslC) :
    ∀ (u v : List Char) (k : Nat),
      allQEsc q (u ++ v) k = (allQEsc q u k && allQEsc q v (bsRun u k)) := by
  intro u
  induction u with
  | nil => intro v k; simp [allQEsc, bsRun]
  | cons c rest ih =>
    intro v k
    rw [List.cons_append, allQEsc_cons, allQEsc_cons, bsRun_cons]
    by_cases hcq : c = q
    · have hcb : ¬c = bslC := by rw [hcq]; exact hq
      simp only [if_pos hcq, if_neg hcb, ih, Bool.and_assoc]
    · simp only [if_neg hcq]
      by_cases hcb : c = bslC
      · simp only [if_pos hcb, ih]
      · simp only [if_neg hcb, ih]

theorem scanLit_none_iff (q : Char) :
    ∀ l, scanLit q l = none ↔ allQEsc q l 0 = true := by
  suffices h : ∀ n l, List.length l ≤ n → (scanLit q l = none ↔ allQEsc q l 0 = true) by
    intro l; exact h l.length l (Nat.le_refl _)
  intro n
  induction n with
  | zero =>
    intro l hl
    have : l = [] := List.eq_nil_of_length_eq_zero (Nat.le_zero.mp hl)
    subst this
    simp [scanLit_nil, allQEsc]
  | succ n ih =>
    intro l hl
    match l, hl with
    | [], _ => simp [scanLit_nil, allQEsc]
    | c :: tl, hl =>
      simp only [List.length_cons] at hl
      by_cases hcq : c = q
      · rw [scanLit_eq_q q c tl hcq, allQEsc_cons, if_pos hcq]
        simp
      · by_cases hcb : c = bslC
        · match tl, hl with
          | [], _ =>
            rw [scanLit_bsl_nil q c hcq hcb, allQEsc_cons, if_neg hcq, if_pos hcb]
            simp [allQEsc]
          | d :: tl₂, hl =>
            simp only [List.length_cons] at hl
            rw [scanLit_bsl_none q c d tl₂ hcq hcb, allQEsc_cons, if_neg hcq, if_pos hcb,
              allQEsc_cons]
            by_cases hdq : d = q
            · rw [if_pos hdq]
              have h01 : decide ((0 + 1) % 2 = 1) = true := by decide
              rw [h01, Bool.true_and]
              exact ih tl₂ (by omega)
            · by_cases hdb : d = bslC
              · rw [if_neg hdq, if_pos hdb]
                have hpar : allQEsc q tl₂ (0 + 1 + 1) = allQEsc q tl₂ 0 := by
                  show allQEsc q tl₂ (0 + 2) = allQEsc q tl₂ 0
                  rw [allQEsc_parity]
                rw [hpar]
                exact ih tl₂ (by omega)
              · rw [if_neg hdq, if_neg hdb]
                exact ih tl₂ (by omega)
        · rw [scanLit_cons_none q c tl hcq hcb, allQEsc_cons, if_neg hcq, if_neg hcb]
          exact ih tl (by omega)

/-! ## `findClose` and `dropToNl` interaction with the folds -/

theorem findClose_some_allQEsc (q : Char) (hqs : ¬q = starC) (hqsl : ¬q = slashC) :
    ∀ l r, findClose l = some r → ∀ k, allQEsc q l k = true → allQEsc q r 0 = true := by
  intro l
  induction l with
  | nil => intro r h; exact absurd h (by simp [findClose])
  | cons c₁ tl ih =>
    intro r h k hesc
    match tl, h with
    | [], h => exact Option.noConfusion h
    | c₂ :: tl₂, h =>
      rw [findClose.eq_def] at h
      simp only at h
      split at h
      · rename_i hpat
        obtain ⟨hst, hsl⟩ := hpat
        cases h
        rw [allQEsc_cons, allQEsc_cons] at hesc
        rw [if_neg (by rw [hst]; exact fun hx => hqs hx.symm),
          if_neg (by rw [hst]; decide)] at hesc
        rw [if_neg (by rw [hsl]; exact fun hx => hqsl hx.symm),
          if_neg (by rw [hsl]; decide)] at hesc
        exact hesc
      · rw [allQEsc_cons] at hesc
        by_cases hc₁q : c₁ = q
        · rw [if_pos hc₁q, Bool.and_eq_true] at hesc
          exact ih r h 0 hesc.2
        · rw [if_neg hc₁q] at hesc
          by_cases hc₁b : c₁ = bslC
          · rw [if_pos hc₁b] at hesc
            exact ih r h (k + 1) hesc
          · rw [if_neg hc₁b] at hesc
            exact ih r h 0 hesc

theorem dropToNl_allQEsc (q : Char) (hqn : ¬q = nlC) :
    ∀ l k, allQEsc q l k = true → allQEsc q (dropToNl l) 0 = true := by
  intro l
  induction l with
  | nil => intro k _; rfl
  | cons c rest ih =>
    intro k hesc
    rw [allQEsc_cons] at hesc
    by_cases hcn : c = nlC
    · have hstep : dropToNl (c :: rest) = c :: rest := by
        show (if c = nlC then c :: rest else dropToNl rest) = c :: rest
        rw [if_pos hcn]
      rw [hstep, allQEsc_cons]
      have hcq : ¬c = q := by rw [hcn]; exact fun hx => hqn hx.symm
      have hcb : ¬c = bslC := by rw [hcn]; decide
      rw [if_neg hcq, if_neg hcb]
      rw [if_neg hcq, if_neg hcb] at hesc
      exact hesc
    · have hstep : dropToNl (c :: rest) = dropToNl rest := by
        show (if c = nlC then c :: rest else dropToNl rest) = dropToNl rest
        rw [if_neg hcn]
      rw [hstep]
      by_cases hcq : c = q
      · rw [if_pos hcq, Bool.and_eq_true] at hesc
        exact ih 0 hesc.2
      · rw [if_neg hcq] at hesc
        by_cases hcb : c = bslC
        · rw [if_pos hcb] at hesc
          exact ih (k + 1) hesc
        · rw [if_neg hcb] at hesc
          exact ih 0 hesc

theorem noCloseF_append :
    ∀ (u v : List Char) (b : Bool),
      noCloseF (u ++ v) b = (noCloseF u b && noCloseF v (starState u b)) := by
  intro u
  induction u with
  | nil => intro v b; simp [noCloseF, starState]
  | cons c rest ih =>
    intro v b
    rw [List.cons_append, noCloseF_cons, noCloseF_cons, starState_cons]
    by_cases hfail : (b && c = slashC) = true
    · rw [if_pos hfail, if_pos hfail]
      simp
    · rw [if_neg hfail, if_neg hfail, ih]

theorem findClose_none_iff : ∀ l, findClose l = none ↔ noCloseF l false = true := by
  suffices h : ∀ l b,
      (noCloseF l b = true ↔ (findClose l = none ∧ (b = true → ∀ tl, ¬l = slashC :: tl))) by
    intro l
    constructor
    · intro hfc
      exact (h l false).mpr ⟨hfc, by simp⟩
    · intro hnc
      exact ((h l false).mp hnc).1
  intro l
  induction l with
  | nil =>
    intro b
    simp [noCloseF, findClose]
  | cons c tl ih =>
    intro b
    rw [noCloseF_cons]
    by_cases hfail : (b && c = slashC) = true
    · rw [if_pos hfail]
      rw [Bool.and_eq_true, decide_eq_true_eq] at hfail
      simp only [Bool.false_eq_true, false_iff, not_and, hfail.1, hfail.2]
      intro _
      exact fun hall => (hall (by simp) tl rfl).elim
    · rw [if_neg hfail]
      rw [ih (c = starC)]
      constructor
      · rintro ⟨hfc, himp⟩
        constructor
        · rw [findClose.eq_def]
          match tl, hfc with
          | [], _ => simp
          | c₂ :: tl₂, hfc =>
            simp only
            split
            · rename_i hpat
              exfalso
              have hcs : c = starC := hpat.1
              exact himp (by simp [hcs]) tl₂ (by rw [hpat.2])
            · exact hfc
        · intro hb tl' heq
          injection heq with hcsl htl
          exact hfail (by rw [Bool.and_eq_true]; exact ⟨hb, by simp [hcsl]⟩)
      · rintro ⟨hfc, hbtl⟩
        rw [findClose.eq_def] at hfc
        constructor
        · match tl, hfc with
          | [], _ => simp [findClose]
          | c₂ :: tl₂, hfc =>
            simp only at hfc
            split at hfc
            · exact Option.noConfusion hfc
            · exact hfc
        · intro hcs tl' heq
          subst heq
          simp only at hfc
          rw [decide_eq_true_eq] at hcs
          rw [if_pos ⟨hcs, trivial⟩] at hfc
          exact Option.noConfusion hfc

/-! ## Step equations for `noCloseF` -/

theorem noCloseF_cons_ne (c : Char) (rest : List Char) (b : Bool) (hc : ¬c = slashC) :
    noCloseF (c :: rest) b = noCloseF rest (c = starC) := by
  rw [noCloseF_cons]
  rw [if_neg]
  intro hx
  rw [Bool.and_eq_true, decide_eq_true_eq] at hx
  exact hc hx.2

theorem noCloseF_slash_true (rest : List Char) :
    noCloseF (slashC :: rest) true = false := by
  rw [noCloseF_cons, if_pos (by decide)]

theorem noCloseF_slash_false (rest : List Char) :
    noCloseF (slashC :: rest) false = noCloseF rest false := by
  rw [noCloseF_cons, if_neg (by simp)]
  have hx : decide (slashC = starC) = false := by decide
  rw [hx]

theorem noCloseF_star (rest : List Char) (b : Bool) :
    noCloseF (starC :: rest) b = noCloseF rest true := by
  rw [noCloseF_cons_ne starC rest b (by decide)]
  have hx : decide (starC = starC) = true := by decide
  rw [hx]

theorem noCloseF_other (c : Char) (rest : List Char) (b : Bool)
    (hsl : ¬c = slashC) (hst : ¬c = starC) :
    noCloseF (c :: rest) b = noCloseF rest false := by
  rw [noCloseF_cons_ne c rest b hsl, decide_eq_false hst]

theorem findClose_some_noCloseF :
    ∀ l r, findClose l = some r → ∀ b, noCloseF l b = false := by
  intro l
  induction l with
  | nil => intro r h; exact absurd h (by simp [findClose])
  | cons c₁ tl ih =>
    intro r h b
    match tl, h with
    | [], h => exact Option.noConfusion h
    | c₂ :: tl₂, h =>
      rw [findClose.eq_def] at h
      simp only at h
      split at h
      · rename_i hpat
        obtain ⟨hst, hsl⟩ := hpat
        subst hst hsl
        rw [noCloseF_star, noCloseF_slash_true]
      · have hrec := ih r h
        by_cases hc₁ : c₁ = slashC
        · subst hc₁
          cases b with
          | true => exact noCloseF_slash_true _
          | false => rw [noCloseF_slash_false]; exact hrec false
        · rw [noCloseF_cons_ne c₁ _ b hc₁]
          exact hrec _

theorem dropToNl_noCloseF :
    ∀ (l : List Char) (b : Bool), noCloseF l b = true → noCloseF (dropToNl l) false = true := by
  intro l
  induction l with
  | nil => intro b _; rfl
  | cons c rest ih =>
    intro b h
    by_cases hcn : c = nlC
    · have hstep : dropToNl (c :: rest) = c :: rest := by
        show (if c = nlC then c :: rest else dropToNl rest) = c :: rest
        rw [if_pos hcn]
      rw [hstep]
      have hsl : ¬c = slashC := by rw [hcn]; decide
      have hst : ¬c = starC := by rw [hcn]; decide
      rw [noCloseF_other c rest b hsl hst] at h
      rw [noCloseF_other c rest false hsl hst]
      exact h
    · have hstep : dropToNl (c :: rest) = dropToNl rest := by
        show (if c = nlC then c :: rest else dropToNl rest) = dropToNl rest
        rw [if_neg hcn]
      rw [hstep]
      by_cases hsl : c = slashC
      · subst hsl
        cases b with
        | true => rw [noCloseF_slash_true] at h; exact absurd h (by simp)
        | false =>
          rw [noCloseF_slash_false] at h
          exact ih false h
      · rw [noCloseF_cons_ne c rest b hsl] at h
        exact ih _ h

/-! ## The sanitizer preserves absence of a close marker -/

theorem rc_noCloseF : ∀ (n : Nat) (l : List Char), l.length ≤ n →
    ∀ b : Bool, noCloseF l b = true → noCloseF (remove_comments l) b = true := by
  intro n
  induction n with
  | zero =>
    intro l hl b h
    have : l = [] := List.eq_nil_of_length_eq_zero (Nat.le_zero.mp hl)
    subst this
    exact h
  | succ n ih =>
    intro l hl b h
    match l with
    | [] => rw [rc_nil]; exact h
    | c :: rest =>
      simp only [List.length_cons] at hl
      by_cases hc : c = slashC
      · subst hc
        match rest with
        | [] => rw [rc_slash_nil]; exact h
        | d :: rest₂ =>
          simp only [List.length_cons] at hl
          cases b with
          | true => rw [noCloseF_slash_true] at h; exact absurd h (by simp)
          | false =>
            rw [noCloseF_slash_false] at h
            by_cases hd : d = slashC
            · subst hd
              rw [noCloseF_slash_false] at h
              rw [rc_line]
              rw [noCloseF_other spC _ false (by decide) (by decide)]
              exact ih (dropToNl rest₂) (Nat.le_trans (dropToNl_length_le _) (by omega)) false
                (dropToNl_noCloseF rest₂ false h)
            · by_cases hs : d = starC
              · subst hs
                rw [noCloseF_star] at h
                cases hfc : findClose rest₂ with
                | some r =>
                  exact absurd h (by rw [findClose_some_noCloseF rest₂ r hfc true]; simp)
                | none =>
                  rw [rc_block_none _ hfc]
                  rw [noCloseF_slash_false]
                  refine ih (starC :: rest₂) (by simp; omega) false ?_
                  rw [noCloseF_star]
                  exact h
              · rw [noCloseF_other d rest₂ false hd hs] at h
                rw [rc_slash_other d rest₂ hd hs]
                rw [noCloseF_slash_false]
                exact ih (d :: rest₂) (by simp; omega) false
                  (by rw [noCloseF_other d rest₂ false hd hs]; exact h)
      · by_cases hq2 : c = sqC ∨ c = dqC
        · have hcsl : ¬c = slashC := hc
          have hcst : ¬c = starC := by rcases hq2 with rfl | rfl <;> decide
          cases hsc : scanLit c rest with
          | some pr =>
            obtain ⟨b', r⟩ := pr
            have hdec := scanLit_decomp c rest b' r hsc
            have hlen := scanLit_rest_length c rest b' r hsc
            rw [rc_lit_some c rest b' r hq2 hsc]
            rw [noCloseF_other c rest b hcsl hcst, hdec, noCloseF_append,
              Bool.and_eq_true] at h
            obtain ⟨hb', hcr⟩ := h
            rw [noCloseF_other c r _ hcsl hcst] at hcr
            show noCloseF ((c :: b') ++ (c :: remove_comments r)) b = true
            rw [noCloseF_append, Bool.and_eq_true]
            constructor
            · rw [noCloseF_other c b' b hcsl hcst]
              exact hb'
            · rw [noCloseF_other c (remove_comments r) _ hcsl hcst]
              exact ih r (by omega) false hcr
          | none =>
            rw [rc_lit_none c rest hq2 hsc]
            rw [noCloseF_other c rest b hcsl hcst] at h
            rw [noCloseF_other c (remove_comments rest) b hcsl hcst]
            exact ih rest (by omega) false h
        · rw [rc_ord c rest hc hq2]
          by_cases hst : c = starC
          · subst hst
            rw [noCloseF_star] at h
            rw [noCloseF_star]
            exact ih rest (by omega) true h
          · rw [noCloseF_other c rest b hc hst] at h
            rw [noCloseF_other c (remove_comments rest) b hc hst]
            exact ih rest (by omega) false h

/-! ## The sanitizer preserves the all-quotes-escaped invariant -/

theorem rc_allQEsc (q : Char) (hq : q = sqC ∨ q = dqC) :
    ∀ (n : Nat) (l : List Char), l.length ≤ n →
      ∀ k : Nat, allQEsc q l k = true → allQEsc q (remove_comments l) k = true := by
  have hqb : ¬q = bslC := by rcases hq with rfl | rfl <;> decide
  have hqsl : ¬q = slashC := by rcases hq with rfl | rfl <;> decide
  have hqst : ¬q = starC := by rcases hq with rfl | rfl <;> decide
  have hqsp : ¬q = spC := by rcases hq with rfl | rfl <;> decide
  have hqn : ¬q = nlC := by rcases hq with rfl | rfl <;> decide
  have hsq : ¬slashC = q := fun hx => hqsl hx.symm
  have hsb : ¬slashC = bslC := by decide
  have hstq : ¬starC = q := fun hx => hqst hx.symm
  have hstb : ¬starC = bslC := by decide
  have hspq : ¬spC = q := fun hx => hqsp hx.symm
  have hspb : ¬spC = bslC := by decide
  intro n
  induction n with
  | zero =>
    intro l hl k h
    have : l = [] := List.eq_nil_of_length_eq_zero (Nat.le_zero.mp hl)
    subst this
    exact h
  | succ n ih =>
    intro l hl k h
    match l with
    | [] => rw [rc_nil]; exact h
    | c :: rest =>
      simp only [List.length_cons] at hl
      by_cases hc : c = slashC
      · subst hc
        match rest with
        | [] => rw [rc_slash_nil]; exact h
        | d :: rest₂ =>
          simp only [List.length_cons] at hl
          rw [allQEsc_cons, if_neg hsq, if_neg hsb] at h
          by_cases hd : d = slashC
          · subst hd
            rw [allQEsc_cons, if_neg hsq, if_neg hsb] at h
            rw [rc_line, allQEsc_cons, if_neg hspq, if_neg hspb]
            exact ih (dropToNl rest₂) (Nat.le_trans (dropToNl_length_le _) (by omega)) 0
              (dropToNl_allQEsc q hqn rest₂ 0 h)
          · by_cases hs : d = starC
            · subst hs
              rw [allQEsc_cons, if_neg hstq, if_neg hstb] at h
              cases hfc : findClose rest₂ with
              | some r =>
                have hlen := findClose_length_le rest₂ r hfc
                rw [rc_block_some _ _ hfc, allQEsc_cons, if_neg hspq, if_neg hspb]
                exact ih r (by omega) 0 (findClose_some_allQEsc q hqst hqsl rest₂ r hfc 0 h)
              | none =>
                rw [rc_block_none _ hfc, allQEsc_cons, if_neg hsq, if_neg hsb]
                refine ih (starC :: rest₂) (by simp; omega) 0 ?_
                rw [allQEsc_cons, if_neg hstq, if_neg hstb]
                exact h
            · rw [rc_slash_other d rest₂ hd hs, allQEsc_cons, if_neg hsq, if_neg hsb]
              exact ih (d :: rest₂) (by simp; omega) 0 h
      · by_cases hq2 : c = sqC ∨ c = dqC
        · have hcb : ¬c = bslC := by rcases hq2 with rfl | rfl <;> decide
          cases hsc : scanLit c rest with
          | some pr =>
            obtain ⟨b, r⟩ := pr
            have hdec := scanLit_decomp c rest b r hsc
            have hlen := scanLit_rest_length c rest b r hsc
            rw [rc_lit_some c rest b r hq2 hsc]
            show allQEsc q ((c :: b) ++ (c :: remove_comments r)) k = true
            rw [allQEsc_cons] at h
            by_cases hcq : c = q
            · rw [if_pos hcq, Bool.and_eq_true] at h
              obtain ⟨hk, hrest⟩ := h
              rw [hdec, allQEsc_append q hqb, Bool.and_eq_true] at hrest
              obtain ⟨hb0, hcr⟩ := hrest
              rw [allQEsc_cons, if_pos hcq, Bool.and_eq_true] at hcr
              obtain ⟨hk2, hr0⟩ := hcr
              rw [allQEsc_append q hqb, Bool.and_eq_true]
              constructor
              · rw [allQEsc_cons, if_pos hcq, Bool.and_eq_true]
                exact ⟨hk, hb0⟩
              · rw [bsRun_cons, if_neg hcb]
                rw [allQEsc_cons, if_pos hcq, Bool.and_eq_true]
                exact ⟨hk2, ih r (by omega) 0 hr0⟩
            · rw [if_neg hcq, if_neg hcb] at h
              rw [hdec, allQEsc_append q hqb, Bool.and_eq_true] at h
              obtain ⟨hb0, hcr⟩ := h
              rw [allQEsc_cons, if_neg hcq, if_neg hcb] at hcr
              rw [allQEsc_append q hqb, Bool.and_eq_true]
              constructor
              · rw [allQEsc_cons, if_neg hcq, if_neg hcb]
                exact hb0
              · rw [bsRun_cons, if_neg hcb]
                rw [allQEsc_cons, if_neg hcq, if_neg hcb]
                exact ih r (by omega) 0 hcr
          | none =>
            rw [rc_lit_none c rest hq2 hsc]
            rw [allQEsc_cons] at h
            rw [allQEsc_cons]
            by_cases hcq : c = q
            · rw [if_pos hcq, Bool.and_eq_true] at h
              rw [if_pos hcq, Bool.and_eq_true]
              exact ⟨h.1, ih rest (by omega) 0 h.2⟩
            · rw [if_neg hcq, if_neg hcb] at h
              rw [if_neg hcq, if_neg hcb]
              exact ih rest (by omega) 0 h
        · rw [rc_ord c rest hc hq2]
          have hcq : ¬c = q := by
            intro hx
            rw [hx] at hq2
            exact hq2 hq
          rw [allQEsc_cons, if_neg hcq] at h
          rw [allQEsc_cons, if_neg hcq]
          by_cases hcb : c = bslC
          · rw [if_pos hcb] at h
            rw [if_pos hcb]
            exact ih rest (by omega) (k + 1) h
          · rw [if_neg hcb] at h
            rw [if_neg hcb]
            exact ih rest (by omega) 0 h

/-! ## Idempotence of the sanitizer -/

theorem rc_head (c : Char) (rest : List Char) (hc : ¬c = slashC) :
    ∃ t, remove_comments (c :: rest) = c :: t := by
  by_cases hq : c = sqC ∨ c = dqC
  · cases hsc : scanLit c rest with
    | some pr =>
      obtain ⟨b, r⟩ := pr
      rw [rc_lit_some c rest b r hq hsc]
      exact ⟨b ++ c :: remove_comments r, rfl⟩
    | none =>
      rw [rc_lit_none c rest hq hsc]
      exact ⟨remove_comments rest, rfl⟩
  · rw [rc_ord c rest hc hq]
    exact ⟨remove_comments rest, rfl⟩

theorem rc_idem : ∀ (n : Nat) (l : List Char), l.length ≤ n →
    remove_comments (remove_comments l) = remove_comments l := by
  intro n
  induction n with
  | zero =>
    intro l hl
    have : l = [] := List.eq_nil_of_length_eq_zero (Nat.le_zero.mp hl)
    subst this
    rfl
  | succ n ih =>
    intro l hl
    match l with
    | [] => rfl
    | c :: rest =>
      simp only [List.length_cons] at hl
      by_cases hc : c = slashC
      · subst hc
        match rest with
        | [] => rw [rc_slash_nil, rc_slash_nil]
        | d :: rest₂ =>
          simp only [List.length_cons] at hl
          by_cases hd : d = slashC
          · subst hd
            rw [rc_line]
            rw [rc_ord spC _ (by decide) (by decide)]
            rw [ih (dropToNl rest₂) (Nat.le_trans (dropToNl_length_le _) (by omega))]
          · by_cases hs : d = starC
            · subst hs
              cases hfc : findClose rest₂ with
              | some r =>
                have hlen := findClose_length_le rest₂ r hfc
                rw [rc_block_some _ _ hfc]
                rw [rc_ord spC _ (by decide) (by decide)]
                rw [ih r (by omega)]
              | none =>
                rw [rc_block_none _ hfc]
                rw [rc_ord starC rest₂ (by decide) (by decide)]
                have hncf : noCloseF rest₂ false = true := (findClose_none_iff rest₂).mp hfc
                have hncf2 : noCloseF (remove_comments rest₂) false = true :=
                  rc_noCloseF rest₂.length rest₂ (Nat.le_refl _) false hncf
                have hfc2 : findClose (remove_comments rest₂) = none :=
                  (findClose_none_iff _).mpr hncf2
                rw [rc_block_none _ hfc2]
                rw [rc_ord starC _ (by decide) (by decide)]
                rw [ih rest₂ (by omega)]
            · rw [rc_slash_other d rest₂ hd hs]
              obtain ⟨t, ht⟩ := rc_head d rest₂ hd
              rw [ht]
              rw [rc_slash_other d t hd hs]
              rw [← ht]
              rw [ih (d :: rest₂) (by simp; omega)]
      · by_cases hq : c = sqC ∨ c = dqC
        · have hcb : ¬c = bslC := by rcases hq with rfl | rfl <;> decide
          cases hsc : scanLit c rest with
          | some pr =>
            obtain ⟨b, r⟩ := pr
            have hlen := scanLit_rest_length c rest b r hsc
            rw [rc_lit_some c rest b r hq hsc]
            have hcln := scanLit_cleanBody c rest b r hsc
            have hsc2 : scanLit c (b ++ c :: remove_comments r) = some (b, remove_comments r) :=
              scanLit_replay c hcb b hcln (remove_comments r)
            show remove_comments (c :: (b ++ c :: remove_comments r)) =
              (c :: b) ++ (c :: remove_comments r)
            rw [rc_lit_some c _ b (remove_comments r) hq hsc2]
            rw [ih r (by omega)]
          | none =>
            rw [rc_lit_none c rest hq hsc]
            have hesc : allQEsc c rest 0 = true := (scanLit_none_iff c rest).mp hsc
            have hesc2 := rc_allQEsc c hq rest.length rest (Nat.le_refl _) 0 hesc
            have hsc2 : scanLit c (remove_comments rest) = none :=
              (scanLit_none_iff c _).mpr hesc2
            rw [rc_lit_none c _ hq hsc2]
            rw [ih rest (by omega)]
        · rw [rc_ord c rest hc hq]
          rw [rc_ord c _ hc hq]
          rw [ih rest (by omega)]

/-- Claim C5: the sanitizer is idempotent: applying `remove_comments`
twice yields the same output as applying it once, for every input. -/
theorem claim_C5 (t : List Char) :
    remove_comments (remove_comments t) = remove_comments t :=
  rc_idem t.length t (Nat.le_refl _)
